import Mathlib

set_option maxHeartbeats 1000000

/-!
Verification development for the SmartDoc AI repository.

The repository ships a Next.js frontend (under `frontend/app`) that talks to a
FastAPI backend (`smartdoc_backend.py`, described by the README and the
in-repo developer documentation page but not part of the checked-in sources).
The frontend pages are embedded directly from their TypeScript sources; the
backend core (chunker, vector index, retriever, answer composer, summarizer
orchestrator, document store) is modelled from the specification, as noted on
each definition.

Strings are embedded as `List Char` where character-level operations matter
(chunking, lowercasing, substring search) and as `String` elsewhere.
Embedding vectors are modelled as `List Int` (the provider is an external
black box; only the ranking structure of scores matters), and similarity is
the dot product, i.e. cosine similarity over L2-normalized vectors.
-/

namespace SmartDoc

/-- Modelled from the spec: the Chunker (§4.1) walks the text from offset 0,
emitting the span from `start` to `start + maxC`, and advancing by
`step = maxC - ov` so that the trailing `ov` characters of a chunk reappear
as the leading characters of the next chunk; when fewer than `maxC`
characters remain, the final span runs to the end of the text.  The `fuel`
argument makes the recursion structural; `fuel = len` is always enough
because each iteration advances `start` by at least one while `start < len`
holds. -/
def chunkSpansGo (maxC step len : Nat) : Nat → Nat → List (Nat × Nat)
  | 0, start => [(start, len)]
  | fuel + 1, start =>
    if 0 < step ∧ start + maxC < len then
      (start, start + maxC) :: chunkSpansGo maxC step len fuel (start + step)
    else
      [(start, len)]

/-- Modelled from the spec: the full list of chunk spans of a text of length
`len`, with maximum chunk size `maxC` and overlap `ov`. -/
def docSpans (len maxC ov : Nat) : List (Nat × Nat) :=
  chunkSpansGo maxC (maxC - ov) len len 0

/-- Modelled from the spec: a Chunk record carries its text span
(start/stop character offsets into the raw text) and the chunk text. -/
structure ChunkRec where
  start : Nat
  stop : Nat
  body : List Char
deriving DecidableEq

/-- Modelled from the spec: `chunk(text, max_chunk_chars, overlap_chars)`.
Empty text yields zero chunks (§4.1); otherwise each span is materialized
with the corresponding slice of the text. -/
def chunkRecs (text : List Char) (maxC ov : Nat) : List ChunkRec :=
  if text = [] then []
  else
    (docSpans text.length maxC ov).map fun p =>
      ⟨p.1, p.2, (text.drop p.1).take (p.2 - p.1)⟩

/-- Modelled from the spec: the chunk texts of a document, in sequence order. -/
def chunkTexts (text : List Char) (maxC ov : Nat) : List (List Char) :=
  (chunkRecs text maxC ov).map (·.body)

example : docSpans 8 4 1 = [(0, 4), (3, 7), (6, 8)] := rfl

example : docSpans 3 4 1 = [(0, 3)] := rfl

example :
    chunkTexts ['a', 'b', 'c', 'd', 'e'] 3 1 = [['a', 'b', 'c'], ['c', 'd', 'e']] := rfl

theorem chunkSpansGo_ne_nil (maxC step len fuel start : Nat) :
    chunkSpansGo maxC step len fuel start ≠ [] := by
  cases fuel with
  | zero => simp [chunkSpansGo]
  | succ n =>
    unfold chunkSpansGo
    split <;> simp

theorem chunkSpansGo_head_fst (maxC step len fuel start : Nat) :
    ∃ e l, chunkSpansGo maxC step len fuel start = (start, e) :: l := by
  cases fuel with
  | zero => exact ⟨len, [], rfl⟩
  | succ n =>
    unfold chunkSpansGo
    split
    · exact ⟨start + maxC, _, rfl⟩
    · exact ⟨len, [], rfl⟩

theorem chunkSpansGo_succ (maxC step len n start : Nat) :
    chunkSpansGo maxC step len (n + 1) start =
      if 0 < step ∧ start + maxC < len then
        (start, start + maxC) :: chunkSpansGo maxC step len n (start + step)
      else
        [(start, len)] := rfl

/-- The chain invariant of a span list: every span but the last has length
exactly `maxC`, and each successive span starts exactly `step` after its
predecessor. -/
def Chained (maxC step : Nat) : List (Nat × Nat) → Prop
  | [] => True
  | [_] => True
  | p :: q :: l => q.1 = p.1 + step ∧ p.2 = p.1 + maxC ∧ Chained maxC step (q :: l)

theorem Chained.get_succ {maxC step : Nat} :
    ∀ {l : List (Nat × Nat)}, Chained maxC step l →
      ∀ i (h : i + 1 < l.length),
        (l.get ⟨i + 1, h⟩).1 = (l.get ⟨i, Nat.lt_of_succ_lt h⟩).1 + step
      ∧ (l.get ⟨i, Nat.lt_of_succ_lt h⟩).2 = (l.get ⟨i, Nat.lt_of_succ_lt h⟩).1 + maxC
  | [], _, i, h => absurd h (by simp)
  | [_], _, i, h => absurd h (by simp)
  | _ :: _ :: _, hc, 0, _ => ⟨hc.1, hc.2.1⟩
  | _ :: q :: t, hc, i + 1, h => Chained.get_succ hc.2.2 i (by simpa using h)

theorem chunkSpansGo_chained (maxC step len : Nat) :
    ∀ fuel start, Chained maxC step (chunkSpansGo maxC step len fuel start) := by
  intro fuel
  induction fuel with
  | zero => intro start; exact trivial
  | succ n ih =>
    intro start
    rw [chunkSpansGo_succ]
    split
    · obtain ⟨e, l, hl⟩ := chunkSpansGo_head_fst maxC step len n (start + step)
      rw [hl]
      refine ⟨rfl, rfl, ?_⟩
      rw [← hl]
      exact ih (start + step)
    · exact trivial

theorem chunkSpansGo_cover (maxC step len : Nat) (hsm : step ≤ maxC) :
    ∀ fuel start c, start ≤ c → c < len →
      ∃ p ∈ chunkSpansGo maxC step len fuel start, p.1 ≤ c ∧ c < p.2 := by
  intro fuel
  induction fuel with
  | zero =>
    intro start c h1 h2
    exact ⟨(start, len), by simp [chunkSpansGo], h1, h2⟩
  | succ n ih =>
    intro start c h1 h2
    by_cases hc : 0 < step ∧ start + maxC < len
    · rw [chunkSpansGo_succ, if_pos hc]
      by_cases hin : c < start + maxC
      · exact ⟨(start, start + maxC), by simp, h1, hin⟩
      · obtain ⟨p, hpmem, hp⟩ := ih (start + step) c (by omega) h2
        exact ⟨p, by simp; right; exact hpmem, hp⟩
    · rw [chunkSpansGo_succ, if_neg hc]
      exact ⟨(start, len), by simp, h1, h2⟩

theorem chunkSpansGo_stop_le (maxC step len : Nat) :
    ∀ fuel start, ∀ p ∈ chunkSpansGo maxC step len fuel start, p.2 ≤ len := by
  intro fuel
  induction fuel with
  | zero =>
    intro start p hp
    simp [chunkSpansGo] at hp
    simp [hp]
  | succ n ih =>
    intro start p hp
    by_cases hc : 0 < step ∧ start + maxC < len
    · rw [chunkSpansGo_succ, if_pos hc] at hp
      rcases List.mem_cons.mp hp with h | h
      · subst h
        omega
      · exact ih (start + step) p h
    · rw [chunkSpansGo_succ, if_neg hc] at hp
      simp at hp
      simp [hp]

theorem Chained.overlap_chain {maxC step ov : Nat} (hstep : step = maxC - ov)
    (hov : ov < maxC) :
    ∀ l : List (Nat × Nat), Chained maxC step l →
      List.Chain' (fun p q : Nat × Nat => p.1 < q.1 ∧ q.1 ≤ p.2 ∧ p.2 - q.1 = ov) l
  | [], _ => List.chain'_nil
  | [p], _ => by simp
  | p :: q :: t, hc => by
    rw [List.chain'_cons]
    refine ⟨?_, Chained.overlap_chain hstep hov (q :: t) hc.2.2⟩
    have h1 := hc.1
    have h2 := hc.2.1
    omega

theorem chunkRecs_eq_map (text : List Char) (maxC ov : Nat) (hne : text ≠ []) :
    chunkRecs text maxC ov
      = (docSpans text.length maxC ov).map fun p =>
          (⟨p.1, p.2, (text.drop p.1).take (p.2 - p.1)⟩ : ChunkRec) := by
  rw [chunkRecs, if_neg hne]

/-- C4: for every document produced by chunk(text, max_chunk_chars,
overlap_chars) with non-empty text and overlap_chars < max_chunk_chars,
the chunk spans are monotonically increasing, their union covers the full
raw text with no gaps (every character position lies inside some chunk
span, and every span stays inside the text), and each pair of consecutive
chunks shares exactly overlap_chars characters: the shared region runs
from the successor's start to the predecessor's stop and has size
overlap_chars. -/
theorem chunker_spans_sound (text : List Char) (maxC ov : Nat)
    (hne : text ≠ []) (hov : ov < maxC) :
    List.Chain'
        (fun a b : ChunkRec =>
          a.start < b.start ∧ b.start ≤ a.stop ∧ a.stop - b.start = ov)
        (chunkRecs text maxC ov)
  ∧ (∀ c, c < text.length → ∃ ck ∈ chunkRecs text maxC ov, ck.start ≤ c ∧ c < ck.stop)
  ∧ (∀ ck ∈ chunkRecs text maxC ov, ck.stop ≤ text.length) := by
  rw [chunkRecs_eq_map text maxC ov hne]
  refine ⟨?_, ?_, ?_⟩
  · rw [List.chain'_map]
    exact Chained.overlap_chain rfl hov _
      (chunkSpansGo_chained maxC (maxC - ov) text.length text.length 0)
  · intro c hc
    obtain ⟨p, hpmem, hp1, hp2⟩ :=
      chunkSpansGo_cover maxC (maxC - ov) text.length (Nat.sub_le maxC ov)
        text.length 0 c (Nat.zero_le c) hc
    exact ⟨⟨p.1, p.2, (text.drop p.1).take (p.2 - p.1)⟩,
      List.mem_map_of_mem _ hpmem, hp1, hp2⟩
  · intro ck hck
    obtain ⟨p, hpmem, hpe⟩ := List.mem_map.mp hck
    have := chunkSpansGo_stop_le maxC (maxC - ov) text.length text.length 0 p hpmem
    rw [← hpe]
    exact this

/-- Witness for C4 at a concrete input: the eight-character text abcdefgh
with max_chunk_chars 4 and overlap_chars 1 (spans (0,4), (3,7), (6,8)). -/
theorem chunker_spans_sound_witness :
    (['a', 'b', 'c', 'd', 'e', 'f', 'g', 'h'] : List Char) ≠ [] ∧ 1 < 4 ∧
    (List.Chain'
        (fun a b : ChunkRec =>
          a.start < b.start ∧ b.start ≤ a.stop ∧ a.stop - b.start = 1)
        (chunkRecs ['a', 'b', 'c', 'd', 'e', 'f', 'g', 'h'] 4 1)
    ∧ (∀ c, c < (['a', 'b', 'c', 'd', 'e', 'f', 'g', 'h'] : List Char).length →
        ∃ ck ∈ chunkRecs ['a', 'b', 'c', 'd', 'e', 'f', 'g', 'h'] 4 1,
          ck.start ≤ c ∧ c < ck.stop)
    ∧ (∀ ck ∈ chunkRecs ['a', 'b', 'c', 'd', 'e', 'f', 'g', 'h'] 4 1,
        ck.stop ≤ (['a', 'b', 'c', 'd', 'e', 'f', 'g', 'h'] : List Char).length)) :=
  ⟨by decide, by decide,
    chunker_spans_sound ['a', 'b', 'c', 'd', 'e', 'f', 'g', 'h'] 4 1
      (by decide) (by decide)⟩

/-- Modelled from the spec: similarity score of two vectors, realized as the
dot product (cosine similarity over L2-normalized vectors, §4.2). -/
def dotInt : List Int → List Int → Int
  | a :: as, b :: bs => a * b + dotInt as bs
  | _, _ => 0

/-- Modelled from the spec: a Vector Index entry maps (document identifier,
chunk sequence index) to an embedding vector (§3). -/
structure IndexEntry where
  docId : Nat
  chunkId : Nat
  vec : List Int
deriving DecidableEq

/-- Modelled from the spec: the ranking relation on scored chunks, best
first; ties on identical score are broken by ascending chunk sequence index
(§4.2). -/
def rankLe (a b : Nat × Int) : Prop :=
  b.2 < a.2 ∨ (a.2 = b.2 ∧ a.1 ≤ b.1)

instance : DecidableRel rankLe := fun a b => by
  unfold rankLe
  infer_instance

instance : IsTotal (Nat × Int) rankLe :=
  ⟨by intro a b; unfold rankLe; omega⟩

instance : IsTrans (Nat × Int) rankLe :=
  ⟨by intro a b c; unfold rankLe; omega⟩

/-- Modelled from the spec: the (chunk_id, score) pairs of the entries of one
document, in index insertion order. -/
def docPairs (idx : List IndexEntry) (d : Nat) (qv : List Int) : List (Nat × Int) :=
  (idx.filter fun e => e.docId == d).map fun e => (e.chunkId, dotInt qv e.vec)

/-- Modelled from the spec: `search(doc_id, query_vector, k)` filters the
shared index structure to the requested document, ranks the scored chunks
best first with deterministic tie-breaking, and returns at most `k` of
them (§4.2). -/
def searchIndex (idx : List IndexEntry) (d : Nat) (qv : List Int) (k : Nat) :
    List (Nat × Int) :=
  (List.insertionSort rankLe (docPairs idx d qv)).take k

example :
    searchIndex [⟨0, 0, [1]⟩, ⟨1, 0, [5]⟩, ⟨0, 1, [2]⟩] 0 [3] 5
      = [(1, 6), (0, 3)] := rfl

/-- C7: searching the Vector Index with doc_id = A never returns a chunk of a
different document: every (chunk_id, score) pair in the result arises from an
index entry whose document identifier is A. -/
theorem search_no_leakage (idx : List IndexEntry) (d : Nat) (qv : List Int)
    (k : Nat) (p : Nat × Int) (hp : p ∈ searchIndex idx d qv k) :
    ∃ e ∈ idx, e.docId = d ∧ e.chunkId = p.1 ∧ p.2 = dotInt qv e.vec := by
  have hp2 : p ∈ List.insertionSort rankLe (docPairs idx d qv) :=
    List.mem_of_mem_take hp
  have hp3 : p ∈ docPairs idx d qv :=
    (List.perm_insertionSort rankLe (docPairs idx d qv)).mem_iff.mp hp2
  obtain ⟨e, he, hpe⟩ := List.mem_map.mp hp3
  obtain ⟨hei, hed⟩ := List.mem_filter.mp he
  refine ⟨e, hei, by simpa using hed, ?_, ?_⟩
  · rw [← hpe]
  · rw [← hpe]

/-- Witness for C7 at a concrete input: a shared index holding entries of
documents 0 and 1, searched for document 0. -/
theorem search_no_leakage_witness :
    (0, 3) ∈ searchIndex [⟨0, 0, [1]⟩, ⟨1, 0, [5]⟩] 0 [3] 5 ∧
    ∃ e ∈ ([⟨0, 0, [1]⟩, ⟨1, 0, [5]⟩] : List IndexEntry),
      e.docId = 0 ∧ e.chunkId = (0, 3).1 ∧ (0, 3).2 = dotInt [3] e.vec :=
  ⟨by decide,
    search_no_leakage [⟨0, 0, [1]⟩, ⟨1, 0, [5]⟩] 0 [3] 5 (0, 3) (by decide)⟩

/-- C8: requesting `k` at least the number of indexed chunks of a document
returns exactly those chunks: the result has one pair per entry of the
document, its chunk identifiers are a permutation of the document's chunk
identifiers, it is ranked best first, and (given the index holds no duplicate
chunk identifier for the document) it contains no duplicates; no error is
possible. -/
theorem search_k_ge_count (idx : List IndexEntry) (d : Nat) (qv : List Int)
    (k : Nat) (hk : (idx.filter fun e => e.docId == d).length ≤ k)
    (hnd : ((idx.filter fun e => e.docId == d).map (·.chunkId)).Nodup) :
    (searchIndex idx d qv k).length = (idx.filter fun e => e.docId == d).length
  ∧ List.Perm ((searchIndex idx d qv k).map Prod.fst)
      ((idx.filter fun e => e.docId == d).map (·.chunkId))
  ∧ List.Sorted rankLe (searchIndex idx d qv k)
  ∧ ((searchIndex idx d qv k).map Prod.fst).Nodup := by
  have hperm : List.Perm (List.insertionSort rankLe (docPairs idx d qv)) (docPairs idx d qv) :=
    List.perm_insertionSort rankLe (docPairs idx d qv)
  have hlen : (List.insertionSort rankLe (docPairs idx d qv)).length
      = (idx.filter fun e => e.docId == d).length := by
    rw [hperm.length_eq, docPairs, List.length_map]
  have htake : searchIndex idx d qv k
      = List.insertionSort rankLe (docPairs idx d qv) := by
    rw [searchIndex]
    exact List.take_of_length_le (by omega)
  have hmapfst : (docPairs idx d qv).map Prod.fst
      = (idx.filter fun e => e.docId == d).map (·.chunkId) := by
    rw [docPairs, List.map_map]
    rfl
  have hpermfst : List.Perm ((searchIndex idx d qv k).map Prod.fst)
      ((idx.filter fun e => e.docId == d).map (·.chunkId)) := by
    rw [htake, ← hmapfst]
    exact hperm.map Prod.fst
  refine ⟨by rw [htake, hlen], hpermfst, ?_, ?_⟩
  · rw [htake]
    exact List.sorted_insertionSort rankLe (docPairs idx d qv)
  · exact hpermfst.nodup_iff.mpr hnd

/-- Witness for C8 at a concrete input: a two-chunk document searched with
k = 5. -/
theorem search_k_ge_count_witness :
    (([⟨0, 0, [1]⟩, ⟨1, 0, [5]⟩, ⟨0, 1, [2]⟩] : List IndexEntry).filter
        fun e => e.docId == 0).length ≤ 5 ∧
    ((([⟨0, 0, [1]⟩, ⟨1, 0, [5]⟩, ⟨0, 1, [2]⟩] : List IndexEntry).filter
        fun e => e.docId == 0).map (·.chunkId)).Nodup ∧
    ((searchIndex [⟨0, 0, [1]⟩, ⟨1, 0, [5]⟩, ⟨0, 1, [2]⟩] 0 [3] 5).length
        = (([⟨0, 0, [1]⟩, ⟨1, 0, [5]⟩, ⟨0, 1, [2]⟩] : List IndexEntry).filter
            fun e => e.docId == 0).length
      ∧ List.Perm
          ((searchIndex [⟨0, 0, [1]⟩, ⟨1, 0, [5]⟩, ⟨0, 1, [2]⟩] 0 [3] 5).map Prod.fst)
          ((([⟨0, 0, [1]⟩, ⟨1, 0, [5]⟩, ⟨0, 1, [2]⟩] : List IndexEntry).filter
              fun e => e.docId == 0).map (·.chunkId))
      ∧ List.Sorted rankLe (searchIndex [⟨0, 0, [1]⟩, ⟨1, 0, [5]⟩, ⟨0, 1, [2]⟩] 0 [3] 5)
      ∧ ((searchIndex [⟨0, 0, [1]⟩, ⟨1, 0, [5]⟩, ⟨0, 1, [2]⟩] 0 [3] 5).map
          Prod.fst).Nodup) :=
  ⟨by decide, by decide,
    search_k_ge_count [⟨0, 0, [1]⟩, ⟨1, 0, [5]⟩, ⟨0, 1, [2]⟩] 0 [3] 5
      (by decide) (by decide)⟩

/-- Modelled from the spec: the error taxonomy of document creation (§7). -/
inductive CreateErr
  | configError
  | emptyDocument
  | capabilityError
deriving DecidableEq

/-- Modelled from the spec: a registered Document of the Document Store
(identifier, filename, raw text, ordered chunk list, §3). -/
structure StoredDoc where
  docId : Nat
  filename : List Char
  text : List Char
  chunks : List (List Char)
deriving DecidableEq

/-- Modelled from the spec: the Document Store together with the shared
Vector Index; document identifiers are assigned monotonically (§3). -/
structure Store where
  docs : List StoredDoc
  nextId : Nat
  index : List IndexEntry
deriving DecidableEq

/-- Modelled from the spec: embedding of every chunk of a document through
the fallible Embedding Provider capability; if any single chunk fails to
embed, the whole batch fails (§7). -/
def embedAll (embed : List Char → Option (List Int)) :
    List (List Char) → Option (List (List Int))
  | [] => some []
  | c :: cs =>
    match embed c, embedAll embed cs with
    | some v, some vs => some (v :: vs)
    | _, _ => none

/-- Modelled from the spec: `createDocument(filename, text)` (§6, §7):
chunk the text, embed every chunk, and only on full success register the
new document and its index entries; any failure leaves the Document Store
and Vector Index exactly as they were. -/
def createDocument (embed : List Char → Option (List Int)) (maxC ov : Nat)
    (st : Store) (fn : List Char) (text : List Char) :
    Store × Except CreateErr Nat :=
  if ov < maxC then
    if text = [] then (st, .error .emptyDocument)
    else
      match embedAll embed (chunkTexts text maxC ov) with
      | none => (st, .error .capabilityError)
      | some vecs =>
        let cks := chunkTexts text maxC ov
        let entries := ((List.range cks.length).zip vecs).map
          fun p => (⟨st.nextId, p.1, p.2⟩ : IndexEntry)
        ({ docs := st.docs ++ [⟨st.nextId, fn, text, cks⟩],
           nextId := st.nextId + 1,
           index := st.index ++ entries }, .ok st.nextId)
  else (st, .error .configError)

theorem embedAll_eq_none_of_mem {embed : List Char → Option (List Int)}
    {c : List Char} :
    ∀ {l : List (List Char)}, c ∈ l → embed c = none → embedAll embed l = none := by
  intro l
  induction l with
  | nil => intro h; exact absurd h (List.not_mem_nil c)
  | cons a t ih =>
    intro hmem hfail
    rcases List.mem_cons.mp hmem with h | h
    · subst h
      simp [embedAll, hfail]
    · have := ih h hfail
      cases hcase : embed a <;> simp [embedAll, hcase, this]

/-- C3: document creation is atomic.  If any chunk of the uploaded text
fails to embed, the whole createDocument operation fails with a
CapabilityError and the returned Store — Document Store and Vector Index
alike — is exactly the input Store: no document is registered and no index
entry is written. -/
theorem create_document_atomic (embed : List Char → Option (List Int))
    (maxC ov : Nat) (st : Store) (fn : List Char) (text : List Char)
    (c : List Char) (hc : c ∈ chunkTexts text maxC ov) (hfail : embed c = none)
    (hne : text ≠ []) (hov : ov < maxC) :
    createDocument embed maxC ov st fn text
      = (st, Except.error CreateErr.capabilityError) := by
  rw [createDocument, if_pos hov, if_neg hne,
    embedAll_eq_none_of_mem hc hfail]

/-- Witness for C3 at a concrete input: a two-character document whose only
chunk fails to embed leaves a concrete Store untouched. -/
theorem create_document_atomic_witness :
    (['a', 'b'] : List Char) ∈ chunkTexts ['a', 'b'] 4 1
  ∧ (fun _ : List Char => (none : Option (List Int))) ['a', 'b'] = none
  ∧ createDocument (fun _ => none) 4 1 ⟨[], 0, []⟩ ['f'] ['a', 'b']
      = (⟨[], 0, []⟩, Except.error CreateErr.capabilityError) :=
  ⟨by decide, rfl,
    create_document_atomic (fun _ => none) 4 1 ⟨[], 0, []⟩ ['f'] ['a', 'b']
      ['a', 'b'] (by decide) rfl (by decide) (by decide)⟩

/-- Modelled from the spec: the error taxonomy of summarization (§7). -/
inductive SummErr
  | summaryTooLarge
  | documentNotFound
  | capabilityError
deriving DecidableEq

/-- Modelled from the spec: the Summarizer Orchestrator's bounded map-reduce
(§4.5).  A text within the capability's single-pass input limit is
summarized directly; otherwise every chunk is summarized, the partial
summaries are concatenated in original chunk order, and the concatenation is
summarized recursively with the depth counter decremented; at depth 0 an
oversized text fails with SummaryTooLarge instead of looping.  The recursion
is structural on the depth counter, so the function is total: it terminates
on every input. -/
def summarizeRec (cap : List Char → List Char) (limit maxC ov : Nat) :
    Nat → List Char → Except SummErr (List Char)
  | 0, t =>
    if t.length ≤ limit then .ok (cap t) else .error .summaryTooLarge
  | d + 1, t =>
    if t.length ≤ limit then .ok (cap t)
    else summarizeRec cap limit maxC ov d (((chunkTexts t maxC ov).map cap).flatten)

/-- Modelled from the spec: `summarize(doc_id)` looks the document up in the
Document Store and runs the bounded summarization with the configured
recursion depth 3 (§4.5). -/
def summarizeDoc (cap : List Char → List Char) (limit maxC ov : Nat)
    (st : Store) (docId : Nat) : Except SummErr (List Char) :=
  match st.docs.find? (fun doc => doc.docId == docId) with
  | none => .error .documentNotFound
  | some doc => summarizeRec cap limit maxC ov 3 doc.text

theorem summarizeRec_ok_or_tooLarge (cap : List Char → List Char)
    (limit maxC ov : Nat) :
    ∀ d t, (∃ s, summarizeRec cap limit maxC ov d t = .ok s)
      ∨ summarizeRec cap limit maxC ov d t = .error .summaryTooLarge := by
  intro d
  induction d with
  | zero =>
    intro t
    by_cases h : t.length ≤ limit
    · exact Or.inl ⟨cap t, by rw [summarizeRec, if_pos h]⟩
    · exact Or.inr (by rw [summarizeRec, if_neg h])
  | succ n ih =>
    intro t
    by_cases h : t.length ≤ limit
    · exact Or.inl ⟨cap t, by rw [summarizeRec, if_pos h]⟩
    · rcases ih (((chunkTexts t maxC ov).map cap).flatten) with ⟨s, hs⟩ | hs
      · exact Or.inl ⟨s, by rw [summarizeRec, if_neg h]; exact hs⟩
      · exact Or.inr (by rw [summarizeRec, if_neg h]; exact hs)

/-- C5: for every registered document, regardless of its size,
summarize(doc_id) terminates (the model is a total function, structural in
the depth bound) and either returns a final summary within the configured
recursion depth 3 or fails with SummaryTooLarge — no other outcome and no
unbounded recursion is possible. -/
theorem summarize_terminates (cap : List Char → List Char) (limit maxC ov : Nat)
    (st : Store) (docId : Nat) (doc : StoredDoc)
    (hdoc : st.docs.find? (fun d => d.docId == docId) = some doc) :
    (∃ s, summarizeDoc cap limit maxC ov st docId = .ok s)
      ∨ summarizeDoc cap limit maxC ov st docId = .error .summaryTooLarge := by
  rw [summarizeDoc, hdoc]
  exact summarizeRec_ok_or_tooLarge cap limit maxC ov 3 doc.text

/-- Witness for C5 at a concrete input: a one-document store under the
identity summarization capability. -/
theorem summarize_terminates_witness :
    (Store.mk [⟨0, ['f'], ['a', 'b'], [['a', 'b']]⟩] 1 []).docs.find?
        (fun d => d.docId == 0) = some ⟨0, ['f'], ['a', 'b'], [['a', 'b']]⟩
  ∧ ((∃ s, summarizeDoc id 10 4 1 ⟨[⟨0, ['f'], ['a', 'b'], [['a', 'b']]⟩], 1, []⟩ 0
        = .ok s)
      ∨ summarizeDoc id 10 4 1 ⟨[⟨0, ['f'], ['a', 'b'], [['a', 'b']]⟩], 1, []⟩ 0
        = .error .summaryTooLarge) :=
  ⟨by decide,
    summarize_terminates id 10 4 1 ⟨[⟨0, ['f'], ['a', 'b'], [['a', 'b']]⟩], 1, []⟩ 0
      ⟨0, ['f'], ['a', 'b'], [['a', 'b']]⟩ (by decide)⟩

/-- Modelled from the spec: the summary cache of the Document Store together
with a call counter for the summarization capability, so that "computed at
most once" is observable (§4.5, §8 scenario 5). -/
structure SummaryState where
  cache : List (Nat × List Char)
  calls : Nat
deriving DecidableEq

/-- Modelled from the spec: `getSummary(doc_id)` returns the cached summary
when present; otherwise it invokes the summarization capability once,
stores the result in the cache, and increments the capability call
counter. -/
def getSummary (compute : Nat → List Char) (st : SummaryState) (docId : Nat) :
    List Char × SummaryState :=
  match st.cache.find? (fun p => p.1 == docId) with
  | some p => (p.2, st)
  | none =>
    let s := compute docId
    (s, ⟨(docId, s) :: st.cache, st.calls + 1⟩)

/-- C6: summarize is memoized per document.  A second call of
getSummary(doc_id) on the state produced by the first call returns the
identical string and the identical state — in particular the capability
call counter does not move, so the summarization capability is not
re-invoked and the summary is computed at most once. -/
theorem get_summary_memoized (compute : Nat → List Char) (st : SummaryState)
    (docId : Nat) :
    getSummary compute ((getSummary compute st docId).2) docId
        = getSummary compute st docId
  ∧ ((getSummary compute ((getSummary compute st docId).2) docId).2).calls
        = ((getSummary compute st docId).2).calls := by
  cases hfind : st.cache.find? (fun p => p.1 == docId) with
  | some p =>
    constructor <;> simp [getSummary, hfind]
  | none =>
    constructor <;> simp [getSummary, hfind, List.find?]

/-- Embeds the `DocumentInfo` interface of
`frontend/app/documents/[id]/page.tsx` (the documents-list page declares an
identically shaped `Document` interface); the filename is kept as a
character list so that character-level operations can be stated. -/
structure DocumentInfo where
  doc_id : Nat
  filename : List Char
  text_length : Nat
  num_chunks : Nat
deriving DecidableEq

/-- The caller-visible part of an HTTP response as the frontend consumes it:
the `ok` flag it branches on, plus the status code that distinguishes a
not-found condition from other failures on the wire. -/
structure HttpResponse where
  ok : Bool
  status : Nat
deriving DecidableEq

/-- The document page's resulting view after `fetchDocumentInfo` settles:
either the document info is shown, or the error banner with a message. -/
inductive DocPageView
  | showDoc (info : DocumentInfo)
  | showError (msg : String)
deriving DecidableEq

/-- Embeds `fetchDocumentInfo` of `frontend/app/documents/[id]/page.tsx`:
a non-ok response throws, and the catch block stores the one fixed error
message, whatever the status was. -/
def fetchDocumentInfoView (resp : HttpResponse) (body : DocumentInfo) :
    DocPageView :=
  if resp.ok then .showDoc body
  else .showError "An error occurred while fetching document info."

/-- Counterexample to C2 as stated: looking up an unknown document
identifier (status 404, ok = false) produces the generic error banner, and
that banner is indistinguishable from the one produced by an internal
server error (status 500) — the failure kinds are collapsed, and "not
found" does surface as a generic failure. -/
theorem error_collapse_counterexample :
    fetchDocumentInfoView ⟨false, 404⟩ ⟨999, ['x'], 0, 0⟩
        = DocPageView.showError "An error occurred while fetching document info."
  ∧ fetchDocumentInfoView ⟨false, 500⟩ ⟨999, ['x'], 0, 0⟩
        = fetchDocumentInfoView ⟨false, 404⟩ ⟨999, ['x'], 0, 0⟩ :=
  ⟨rfl, rfl⟩

/-- C2 as amended: after the frontend's transport translation, every failing
document-info fetch — whatever its status code, including the 404 of an
unknown document identifier — yields the single generic error message, so
the failure kinds of the registry API are not distinguishable by the
user. -/
theorem fetch_document_info_generic_error (resp : HttpResponse)
    (body : DocumentInfo) (h : resp.ok = false) :
    fetchDocumentInfoView resp body
      = DocPageView.showError "An error occurred while fetching document info." := by
  rw [fetchDocumentInfoView, h]
  simp

/-- Witness for the amended C2 at a concrete input: the 404 response of an
unknown document identifier. -/
theorem fetch_document_info_generic_error_witness :
    (HttpResponse.mk false 404).ok = false
  ∧ fetchDocumentInfoView ⟨false, 404⟩ ⟨999, ['x'], 0, 0⟩
      = DocPageView.showError "An error occurred while fetching document info." :=
  ⟨by decide, fetch_document_info_generic_error ⟨false, 404⟩ ⟨999, ['x'], 0, 0⟩ rfl⟩

/-- Embeds the `QueryResponse` interface of
`frontend/app/documents/[id]/page.tsx`, which is also the response shape
documented for POST /document/(doc_id)/query on the documentation page:
doc_id, query, answer and context_chunks — there is no confidence field. -/
structure QueryResponse where
  doc_id : Nat
  query : String
  answer : String
  context_chunks : List String
deriving DecidableEq

/-- Modelled from the spec: the Answer Composer's result record
(answer_text, confidence, supporting_chunks), with the confidence a rational
in the unit interval (§4.4). -/
structure ComposeResult where
  answer_text : String
  confidence : Rat
  supporting_chunks : List String
deriving DecidableEq

/-- Modelled from the spec: the Answer Composer's failure kinds (§4.4). -/
inductive ComposeErr
  | noContext
  | answerUnavailable
deriving DecidableEq

/-- Modelled from the spec: select the candidate with the highest
confidence; an exact tie keeps the earlier candidate, i.e. the one from the
chunk with the better retrieval rank (§4.4). -/
def selectBest : List (String × Rat) → Option (String × Rat)
  | [] => none
  | c :: rest =>
    some (rest.foldl (fun best cand => if best.2 < cand.2 then cand else best) c)

/-- Modelled from the spec: the Answer Composer (§4.4): with no retrieved
chunks fail with NoContext; query the QA capability on every retrieved chunk
in rank order; if no chunk produced a candidate fail with
AnswerUnavailable; otherwise return the winning candidate together with the
full ordered list of retrieved chunks. -/
def composeAnswer (qa : String → String → Option (String × Rat)) (q : String)
    (retrieved : List String) : Except ComposeErr ComposeResult :=
  if retrieved = [] then .error .noContext
  else
    match selectBest (retrieved.filterMap fun c => qa q c) with
    | none => .error .answerUnavailable
    | some best => .ok ⟨best.1, best.2, retrieved⟩

/-- The transport translation of a successful answer into the response the
caller receives, with exactly the fields of the frontend's QueryResponse. -/
def toQueryResponse (d : Nat) (q : String) (r : ComposeResult) : QueryResponse :=
  ⟨d, q, r.answer_text, r.supporting_chunks⟩

/-- Counterexample to C1 as stated: two composer results that differ only in
their confidence score are delivered to the caller as the same
QueryResponse, so the result delivered by the query operation does not
contain the confidence score. -/
theorem confidence_not_delivered_counterexample :
    toQueryResponse 1 "q" ⟨"a", 0, ["c"]⟩ = toQueryResponse 1 "q" ⟨"a", 1, ["c"]⟩
  ∧ (ComposeResult.mk "a" 0 ["c"]).confidence
      ≠ (ComposeResult.mk "a" 1 ["c"]).confidence :=
  ⟨rfl, by decide⟩

/-- C1 as amended: for every successful call of the query operation, the
result delivered to the caller contains the winning answer text and the
full ordered list of retrieved chunks as supporting context; the confidence
score is not part of the delivered response. -/
theorem query_response_contents (qa : String → String → Option (String × Rat))
    (d : Nat) (q : String) (retrieved : List String) (r : ComposeResult)
    (h : composeAnswer qa q retrieved = .ok r) :
    (toQueryResponse d q r).answer = r.answer_text
  ∧ (toQueryResponse d q r).context_chunks = retrieved := by
  refine ⟨rfl, ?_⟩
  rw [composeAnswer] at h
  split at h
  · exact absurd h (by simp)
  · split at h
    · exact absurd h (by simp)
    · have := Except.ok.inj h
      rw [← this]
      rfl

/-- Witness for the amended C1 at a concrete input: a QA capability that
answers every chunk with confidence 1, over a single retrieved chunk. -/
theorem query_response_contents_witness :
    composeAnswer (fun _ c => some (c, 1)) "q" ["x"] = .ok ⟨"x", 1, ["x"]⟩
  ∧ (toQueryResponse 7 "q" ⟨"x", 1, ["x"]⟩).answer = (ComposeResult.mk "x" 1 ["x"]).answer_text
  ∧ (toQueryResponse 7 "q" ⟨"x", 1, ["x"]⟩).context_chunks = ["x"] :=
  ⟨rfl, query_response_contents (fun _ c => some (c, 1)) 7 "q" ["x"] ⟨"x", 1, ["x"]⟩ rfl⟩

/-- Embeds JavaScript's `toLowerCase()` on an embedded string: each
character is lowercased. -/
def lowerList (s : List Char) : List Char := s.map Char.toLower

/-- Helper for the substring test: does the first list occur at the very
beginning of the second? -/
def leadsList : List Char → List Char → Bool
  | [], _ => true
  | _ :: _, [] => false
  | a :: as, b :: bs => a == b && leadsList as bs

/-- Embeds JavaScript's `String.prototype.includes`: the needle occurs as a
contiguous substring of the haystack, tested at every position (position
`hay.length` included, which makes the empty needle always found). -/
def containsSub (needle hay : List Char) : Bool :=
  (List.range (hay.length + 1)).any fun i => leadsList needle (hay.drop i)

/-- Embeds the filter predicate of `DocumentsPage`:
`doc.filename.toLowerCase().includes(searchTerm.toLowerCase())`. -/
def matchesSearch (term : List Char) (d : DocumentInfo) : Bool :=
  containsSub (lowerList term) (lowerList d.filename)

/-- Embeds the filtering effect of `DocumentsPage`:
`documents.filter((doc) => doc.filename.toLowerCase().includes(searchTerm.toLowerCase()))`. -/
def filteredDocuments (docs : List DocumentInfo) (term : List Char) :
    List DocumentInfo :=
  docs.filter (matchesSearch term)

theorem leadsList_iff (n : List Char) :
    ∀ xs : List Char, leadsList n xs = true ↔ ∃ t, n ++ t = xs := by
  induction n with
  | nil =>
    intro xs
    simp [leadsList]
  | cons a as ih =>
    intro xs
    cases xs with
    | nil =>
      simp [leadsList]
    | cons b bs =>
      rw [leadsList]
      simp only [Bool.and_eq_true, beq_iff_eq, ih bs]
      constructor
      · rintro ⟨hab, t, ht⟩
        exact ⟨t, by rw [List.cons_append, hab, ht]⟩
      · rintro ⟨t, ht⟩
        rw [List.cons_append] at ht
        exact ⟨List.head_eq_of_cons_eq ht, t, List.tail_eq_of_cons_eq ht⟩

theorem containsSub_iff (needle hay : List Char) :
    containsSub needle hay = true ↔ ∃ s t, s ++ needle ++ t = hay := by
  rw [containsSub, List.any_eq_true]
  constructor
  · rintro ⟨i, hi, hlead⟩
    obtain ⟨t, ht⟩ := (leadsList_iff needle (hay.drop i)).mp hlead
    refine ⟨hay.take i, t, ?_⟩
    rw [List.append_assoc, ht, List.take_append_drop]
  · rintro ⟨s, t, hst⟩
    refine ⟨s.length, ?_, ?_⟩
    · rw [List.mem_range]
      have : hay.length = s.length + (needle.length + t.length) := by
        rw [← hst]
        simp
      omega
    · refine (leadsList_iff needle (hay.drop s.length)).mpr ⟨t, ?_⟩
      rw [← hst, List.append_assoc, List.drop_left]

theorem containsSub_nil (hay : List Char) : containsSub [] hay = true :=
  (containsSub_iff [] hay).mpr ⟨[], hay, rfl⟩

/-- C9: the document-list page's filename search shows, for every fetched
document list and search term, exactly those documents whose lowercased
filename has the lowercased search term as a contiguous substring —
membership is preserved exactly, the original order is preserved (the
result is a sublist of the fetched list), and the empty search term shows
every document. -/
theorem documents_search_exact (docs : List DocumentInfo) (term : List Char) :
    (∀ d, d ∈ filteredDocuments docs term
        ↔ d ∈ docs ∧ ∃ s t, s ++ lowerList term ++ t = lowerList d.filename)
  ∧ List.Sublist (filteredDocuments docs term) docs
  ∧ filteredDocuments docs [] = docs := by
  refine ⟨?_, List.filter_sublist docs, ?_⟩
  · intro d
    rw [filteredDocuments, List.mem_filter, matchesSearch, containsSub_iff]
  · rw [filteredDocuments, List.filter_eq_self]
    intro d _
    exact containsSub_nil (lowerList d.filename)

/-- Embeds the `uploadResult` state record of `frontend/app/upload/page.tsx`
(success flag, message, optional doc id). -/
structure UploadOutcome where
  success : Bool
  message : String
  docId : Option Nat
deriving DecidableEq

/-- Embeds the state of `UploadPage`: the selected file (if any), the
`uploading` flag and the `uploadResult` record. -/
structure UploadState where
  file : Option String
  uploading : Bool
  uploadResult : Option UploadOutcome
deriving DecidableEq

/-- Embeds `handleSubmit` of `frontend/app/upload/page.tsx` as a transition
on the page state, also counting the network requests it issues.  With no
file selected it returns immediately; otherwise it issues exactly one POST
(modelled by `doFetch`, returning `none` on a network error and otherwise
the response's ok flag and parsed doc_id), stores the outcome, and the
`finally` block clears the `uploading` flag. -/
def handleSubmit (doFetch : String → Option (Bool × Option Nat))
    (s : UploadState) : UploadState × Nat :=
  match s.file with
  | none => (s, 0)
  | some f =>
    match doFetch f with
    | some (ok, docId) =>
      let msg := if ok then "Document uploaded successfully." else "Upload failed."
      ({ s with uploading := false, uploadResult := some ⟨ok, msg, docId⟩ }, 1)
    | none =>
      ({ s with uploading := false,
                uploadResult := some ⟨false, "An error occurred during upload.", none⟩ }, 1)

/-- C10: submitting the upload form with no file selected performs no
action: handleSubmit issues zero network requests and leaves the page state
— in particular the uploading flag and the uploadResult record — exactly
as it was. -/
theorem upload_no_file_noop (doFetch : String → Option (Bool × Option Nat))
    (s : UploadState) (h : s.file = none) :
    handleSubmit doFetch s = (s, 0)
  ∧ (handleSubmit doFetch s).1.uploading = s.uploading
  ∧ (handleSubmit doFetch s).1.uploadResult = s.uploadResult := by
  have hrw : handleSubmit doFetch s = (s, 0) := by
    rw [handleSubmit, h]
  exact ⟨hrw, by rw [hrw], by rw [hrw]⟩

/-- Witness for C10 at a concrete input: the initial page state with no
file selected, the uploading flag false and no upload result. -/
theorem upload_no_file_noop_witness :
    (UploadState.mk none false none).file = none
  ∧ (handleSubmit (fun _ => none) ⟨none, false, none⟩ = (⟨none, false, none⟩, 0)
      ∧ (handleSubmit (fun _ => none) ⟨none, false, none⟩).1.uploading
          = (UploadState.mk none false none).uploading
      ∧ (handleSubmit (fun _ => none) ⟨none, false, none⟩).1.uploadResult
          = (UploadState.mk none false none).uploadResult) :=
  ⟨by decide, upload_no_file_noop (fun _ => none) ⟨none, false, none⟩ rfl⟩

end SmartDoc
